import Mathlib

/-!
# Verification of the equiflow UUID identity / storage-encoding layer

Shallow embedding of the UUID codec, the UUIDv7 generators and the
tenant-scoped contact repository of the equiflow repository, together with
proofs and refutations of the specified properties.

Strings are modelled as `List Char` (JS strings restricted to the ASCII
range used by the code), byte arrays (`Uint8Array(16)`) as `List Nat` with
entries `< 256`, and JS `Date` values as `Nat` milliseconds (`Option Nat`
where an invalid date / `NaN` can arise).
-/

/-! ## Hexadecimal character primitives -/

/-- Value of one hexadecimal digit character, as `parseInt(_, 16)` accepts
them: `'0'`..`'9'` (codes 48-57), `'a'`..`'f'` (97-102), `'A'`..`'F'`
(65-70); `none` for every other character. -/
def hexDigitVal? (c : Char) : Option Nat :=
  if 48 ≤ c.toNat ∧ c.toNat ≤ 57 then some (c.toNat - 48)
  else if 97 ≤ c.toNat ∧ c.toNat ≤ 102 then some (c.toNat - 87)
  else if 65 ≤ c.toNat ∧ c.toNat ≤ 70 then some (c.toNat - 55)
  else none

/-- `c` is a hexadecimal digit (either case). -/
def isHexDigitChar (c : Char) : Bool := (hexDigitVal? c).isSome

/-- `c` is a lowercase hexadecimal digit (`0`-`9`, `a`-`f`). -/
def isLowerHexDigit (c : Char) : Bool :=
  (48 ≤ c.toNat ∧ c.toNat ≤ 57) ∨ (97 ≤ c.toNat ∧ c.toNat ≤ 102)

/-- Value of a hexadecimal digit character, defaulting to `0`. -/
def hexVal (c : Char) : Nat := (hexDigitVal? c).getD 0

/-- The lowercase hexadecimal digit character for `d < 16`, i.e. the digit
table `0123456789abcdef` used by JS `Number.prototype.toString(16)`. -/
def toHexDigit (d : Nat) : Char :=
  if d < 10 then Char.ofNat (48 + d) else Char.ofNat (87 + d)

/-- JS `String.prototype.toLowerCase` on the ASCII range: maps `'A'`-`'Z'`
(codes 65-90) to the corresponding lowercase letter, leaves every other
character unchanged. -/
def jsCharToLower (c : Char) : Char :=
  if 65 ≤ c.toNat ∧ c.toNat ≤ 90 then Char.ofNat (c.toNat + 32) else c

/-- Tail loop of `parseInt(s, 16)`: consumes further hexadecimal digits,
stopping at the first character that is not one. -/
def parseHexTail : List Char → Nat → Nat
  | [], acc => acc
  | c :: rest, acc =>
    match hexDigitVal? c with
    | some d => parseHexTail rest (16 * acc + d)
    | none => acc

/-- JS `parseInt(s, 16)` as used by the codec: an optional `0x`/`0X` prefix
is stripped, then the longest leading run of hexadecimal digits is parsed;
the result is `none` (`NaN`) when no digit is found.  (Leading whitespace
and sign handling are omitted: every call site passes substrings of
hex-and-hyphen strings.) -/
def jsParseIntHex (s : List Char) : Option Nat :=
  let s := if s.take 2 = ['0', 'x'] ∨ s.take 2 = ['0', 'X'] then s.drop 2 else s
  match s with
  | [] => none
  | c :: rest =>
    match hexDigitVal? c with
    | some d => some (parseHexTail rest d)
    | none => none

/-- Storing a JS number into a `Uint8Array` cell (`ToUint8`): `NaN` becomes
`0`, a nonnegative integer is reduced mod 256. -/
def toUint8 : Option Nat → Nat
  | none => 0
  | some n => n % 256

/-- JS `b.toString(16).padStart(2, '0')` for a byte value `b < 256`:
exactly two lowercase hexadecimal digits. -/
def byteToHexPair (b : Nat) : List Char :=
  [toHexDigit (b / 16 % 16), toHexDigit (b % 16)]

/-! ## The UUID codec (`UUIDUtils` in `uuid-blob-storage-example.ts`,
identical to `EquiflowUUIDUtils.toBlob`/`fromBlob` in the unnamed
UUID-utils file) -/

/-- The hyphen-joining of the five canonical groups, shared by
`bytesToString` and `compactToString`:
`[h.substring(0,8), h.substring(8,12), h.substring(12,16),
h.substring(16,20), h.substring(20,32)].join('-')`. -/
def insertHyphens (h : List Char) : List Char :=
  h.take 8 ++ '-' :: ((h.drop 8).take 4 ++ '-' :: ((h.drop 12).take 4 ++
    '-' :: ((h.drop 16).take 4 ++ '-' :: (h.drop 20).take 12)))

/-- `UUIDUtils.stringToBytes` / `EquiflowUUIDUtils.toBlob`: strip hyphens,
then fill a 16-byte array with `bytes[i] = parseInt(hex.substr(i*2, 2), 16)`. -/
def stringToBytes (uuid : List Char) : List Nat :=
  let hex := uuid.filter (fun c => decide (c ≠ '-'))
  (List.range 16).map (fun i => toUint8 (jsParseIntHex ((hex.drop (2 * i)).take 2)))

/-- `UUIDUtils.bytesToString` / `EquiflowUUIDUtils.fromBlob`: render each
byte as two lowercase hex digits, join, and re-insert the hyphens. -/
def bytesToString (bytes : List Nat) : List Char :=
  insertHyphens ((bytes.map byteToHexPair).flatten)

/-- `UUIDUtils.stringToCompact`: remove every hyphen (the global-replace
of `'-'` with the empty string). -/
def stringToCompact (uuid : List Char) : List Char :=
  uuid.filter (fun c => decide (c ≠ '-'))

/-- `UUIDUtils.compactToString`: re-insert hyphens at the fixed offsets. -/
def compactToString (compact : List Char) : List Char :=
  insertHyphens compact

/-- The `FULL_STRING` / CANONICAL_TEXT storage path: the identifier string
is stored as-is (`storedId = id`) and returned unchanged by
`convertStoredIdToString`. -/
def fullStringStore (uuid : List Char) : List Char := uuid

/-- `UUIDUtils.extractTimestamp` on the string form: take the first 12
characters of the hyphen-stripped string, `parseInt(_, 16)`, and build a
`Date` from it (`none` = invalid date from `NaN`). -/
def extractTimestampStr (uuid : List Char) : Option Nat :=
  jsParseIntHex (((uuid.filter (fun c => decide (c ≠ '-'))).take 12))

/-! ## Validity of canonical identifier text -/

/-- A valid canonical identifier string: 32 hexadecimal digits (either
case) with hyphens inserted at the canonical offsets 8, 13, 18, 23. -/
def ValidCanonical (s : List Char) : Prop :=
  ∃ h : List Char, h.length = 32 ∧ (∀ c ∈ h, isHexDigitChar c = true) ∧
    s = insertHyphens h

/-- A valid canonical identifier string in the lowercase wire format. -/
def ValidCanonicalLower (s : List Char) : Prop :=
  ∃ h : List Char, h.length = 32 ∧ (∀ c ∈ h, isLowerHexDigit c = true) ∧
    s = insertHyphens h

/-! ## Character-level lemmas -/

theorem charToNat_ofNat {n : Nat} (h : n < 55296) : (Char.ofNat n).toNat = n := by
  have hv : n.isValidChar := Or.inl h
  simp only [Char.ofNat, hv, dif_pos, Char.ofNatAux, Char.toNat, UInt32.toNat]
  simp

theorem char_eq_of_toNat_eq {a b : Char} (h : a.toNat = b.toNat) : a = b :=
  Char.ext (UInt32.toNat.inj h)

theorem char_lt_iff_toNat_lt {a b : Char} : a < b ↔ a.toNat < b.toNat := by
  rw [Char.lt_def]
  exact ⟨fun h => h, fun h => h⟩

theorem hexVal_lt_16 {c : Char} (h : isHexDigitChar c = true) : hexVal c < 16 := by
  unfold isHexDigitChar hexDigitVal? at h
  unfold hexVal hexDigitVal?
  split at h
  · next hc => simp only [if_pos hc, Option.getD_some]; omega
  · split at h
    · next hc1 hc2 =>
      rw [if_neg hc1, if_pos hc2]
      simp only [Option.getD_some]; omega
    · split at h
      · next hc1 hc2 hc3 =>
        rw [if_neg hc1, if_neg hc2, if_pos hc3]
        simp only [Option.getD_some]; omega
      · simp at h

theorem hexDigitVal?_eq_some_hexVal {c : Char} (h : isHexDigitChar c = true) :
    hexDigitVal? c = some (hexVal c) := by
  unfold isHexDigitChar at h
  unfold hexVal
  cases hv : hexDigitVal? c with
  | none => rw [hv] at h; simp at h
  | some d => simp

theorem isLowerHexDigit_isHexDigitChar {c : Char} (h : isLowerHexDigit c = true) :
    isHexDigitChar c = true := by
  unfold isLowerHexDigit at h
  unfold isHexDigitChar hexDigitVal?
  simp only [decide_eq_true_eq] at h
  rcases h with h | h
  · rw [if_pos h]; rfl
  · by_cases h1 : 48 ≤ c.toNat ∧ c.toNat ≤ 57
    · rw [if_pos h1]; rfl
    · rw [if_neg h1, if_pos h]; rfl

theorem hexDigitChar_ne_hyphen {c : Char} (h : isHexDigitChar c = true) : c ≠ '-' := by
  intro heq
  subst heq
  exact absurd h (by decide)

theorem toNat_toHexDigit {d : Nat} (h : d < 16) :
    (toHexDigit d).toNat = if d < 10 then 48 + d else 87 + d := by
  unfold toHexDigit
  split
  · exact charToNat_ofNat (by omega)
  · exact charToNat_ofNat (by omega)

theorem isLowerHexDigit_toHexDigit {d : Nat} (h : d < 16) :
    isLowerHexDigit (toHexDigit d) = true := by
  have := toNat_toHexDigit h
  unfold isLowerHexDigit
  rw [this]
  split <;> (simp only [decide_eq_true_eq]; omega)

theorem hexDigitVal?_toHexDigit {d : Nat} (h : d < 16) :
    hexDigitVal? (toHexDigit d) = some d := by
  have ht := toNat_toHexDigit h
  unfold hexDigitVal?
  rw [ht]
  by_cases h10 : d < 10
  · rw [if_pos h10, if_pos (by omega)]
    congr 1; omega
  · rw [if_neg h10, if_neg (by omega), if_pos (by omega)]
    congr 1; omega

theorem hexVal_toHexDigit {d : Nat} (h : d < 16) : hexVal (toHexDigit d) = d := by
  unfold hexVal
  rw [hexDigitVal?_toHexDigit h]
  rfl

theorem isHexDigitChar_toHexDigit {d : Nat} (h : d < 16) :
    isHexDigitChar (toHexDigit d) = true := by
  unfold isHexDigitChar
  rw [hexDigitVal?_toHexDigit h]
  rfl

/-- Round trip at character level: printing the value of a lowercase hex
digit gives the digit back. -/
theorem toHexDigit_hexVal {c : Char} (h : isLowerHexDigit c = true) :
    toHexDigit (hexVal c) = c := by
  unfold isLowerHexDigit at h
  simp only [decide_eq_true_eq] at h
  apply char_eq_of_toNat_eq
  rcases h with h | h
  · have hv : hexVal c = c.toNat - 48 := by
      unfold hexVal hexDigitVal?
      rw [if_pos h]; rfl
    rw [hv, toNat_toHexDigit (by omega)]
    split <;> omega
  · have hv : hexVal c = c.toNat - 87 := by
      unfold hexVal hexDigitVal?
      rw [if_neg (by omega), if_pos h]; rfl
    rw [hv, toNat_toHexDigit (by omega)]
    split <;> omega

/-- Printing the value of an arbitrary hex digit gives its lowercase form. -/
theorem toHexDigit_hexVal_toLower {c : Char} (h : isHexDigitChar c = true) :
    toHexDigit (hexVal c) = jsCharToLower c := by
  unfold isHexDigitChar hexDigitVal? at h
  by_cases h1 : 48 ≤ c.toNat ∧ c.toNat ≤ 57
  · rw [show jsCharToLower c = c by unfold jsCharToLower; rw [if_neg (by omega)]]
    exact toHexDigit_hexVal (by unfold isLowerHexDigit; simp only [decide_eq_true_eq]; omega)
  · by_cases h2 : 97 ≤ c.toNat ∧ c.toNat ≤ 102
    · rw [show jsCharToLower c = c by unfold jsCharToLower; rw [if_neg (by omega)]]
      exact toHexDigit_hexVal (by unfold isLowerHexDigit; simp only [decide_eq_true_eq]; omega)
    · by_cases h3 : 65 ≤ c.toNat ∧ c.toNat ≤ 70
      · have hv : hexVal c = c.toNat - 55 := by
          unfold hexVal hexDigitVal?
          rw [if_neg h1, if_neg h2, if_pos h3]; rfl
        apply char_eq_of_toNat_eq
        rw [hv, toNat_toHexDigit (by omega), show jsCharToLower c = Char.ofNat (c.toNat + 32) by
          unfold jsCharToLower; rw [if_pos (by omega)]]
        rw [charToNat_ofNat (by have := c.toNat; omega)]
        split <;> omega
      · rw [if_neg h1, if_neg h2, if_neg h3] at h
        simp at h

theorem jsCharToLower_of_lower {c : Char} (h : isLowerHexDigit c = true) :
    jsCharToLower c = c := by
  unfold isLowerHexDigit at h
  simp only [decide_eq_true_eq] at h
  unfold jsCharToLower
  rw [if_neg (by omega)]

theorem isLowerHexDigit_jsCharToLower {c : Char} (h : isHexDigitChar c = true) :
    isLowerHexDigit (jsCharToLower c) = true := by
  rw [← toHexDigit_hexVal_toLower h]
  exact isLowerHexDigit_toHexDigit (hexVal_lt_16 h)

/-! ## List-level machinery for the codec proofs -/

/-- One cell of the `stringToBytes` loop: `parseInt` of a two-character
chunk, stored into the `Uint8Array`. -/
def parsePair (l : List Char) : Nat := toUint8 (jsParseIntHex l)

/-- Process a string two characters at a time, `n` chunks. -/
def pairMap (f : List Char → β) : Nat → List Char → List β
  | 0, _ => []
  | n + 1, s => f (s.take 2) :: pairMap f n (s.drop 2)

theorem range_map_pairs (f : List Char → β) (n : Nat) (s : List Char) :
    (List.range n).map (fun i => f ((s.drop (2 * i)).take 2)) = pairMap f n s := by
  induction n generalizing s with
  | zero => rfl
  | succ k ih =>
    rw [List.range_succ_eq_map]
    simp only [List.map_cons, List.map_map]
    refine congrArg₂ _ (by simp) ?_
    rw [← ih (s.drop 2)]
    apply List.map_congr_left
    intro i _
    simp only [Function.comp_apply]
    rw [List.drop_drop]
    congr 3
    omega

theorem take_reassemble {h : List Char} (hl : h.length = 32) :
    h.take 8 ++ ((h.drop 8).take 4 ++ ((h.drop 12).take 4 ++
      ((h.drop 16).take 4 ++ (h.drop 20).take 12))) = h := by
  have e1 : h.take 8 ++ (h.drop 8).take 4 = h.take 12 := by
    simpa using (List.take_add h 8 4).symm
  have e2 : h.take 12 ++ (h.drop 12).take 4 = h.take 16 := by
    simpa using (List.take_add h 12 4).symm
  have e3 : h.take 16 ++ (h.drop 16).take 4 = h.take 20 := by
    simpa using (List.take_add h 16 4).symm
  have e4 : h.take 20 ++ (h.drop 20).take 12 = h.take 32 := by
    simpa using (List.take_add h 20 12).symm
  calc h.take 8 ++ ((h.drop 8).take 4 ++ ((h.drop 12).take 4 ++
          ((h.drop 16).take 4 ++ (h.drop 20).take 12)))
      = (((h.take 8 ++ (h.drop 8).take 4) ++ (h.drop 12).take 4) ++
          (h.drop 16).take 4) ++ (h.drop 20).take 12 := by
        simp [List.append_assoc]
    _ = h.take 32 := by rw [e1, e2, e3, e4]
    _ = h := List.take_of_length_le (by omega)

theorem filter_hex_eq_self {h : List Char} (hhex : ∀ c ∈ h, isHexDigitChar c = true) :
    h.filter (fun c => decide (c ≠ '-')) = h := by
  apply List.filter_eq_self.mpr
  intro c hc
  simpa using hexDigitChar_ne_hyphen (hhex c hc)

theorem filter_insertHyphens {h : List Char} (hl : h.length = 32)
    (hhex : ∀ c ∈ h, isHexDigitChar c = true) :
    (insertHyphens h).filter (fun c => decide (c ≠ '-')) = h := by
  have hsub : ∀ (l : List Char), (∀ c ∈ l, c ∈ h) →
      l.filter (fun c => decide (c ≠ '-')) = l := by
    intro l hm
    exact filter_hex_eq_self (fun c hc => hhex c (hm c hc))
  have hy : ∀ l : List Char, ('-' :: l).filter (fun c => decide (c ≠ '-')) =
      l.filter (fun c => decide (c ≠ '-')) := fun l => by simp [List.filter_cons]
  unfold insertHyphens
  simp only [List.filter_append, hy]
  rw [hsub _ (fun c hc => List.mem_of_mem_take hc),
    hsub _ (fun c hc => List.mem_of_mem_drop (List.mem_of_mem_take hc)),
    hsub _ (fun c hc => List.mem_of_mem_drop (List.mem_of_mem_take hc)),
    hsub _ (fun c hc => List.mem_of_mem_drop (List.mem_of_mem_take hc)),
    hsub _ (fun c hc => List.mem_of_mem_drop (List.mem_of_mem_take hc))]
  exact take_reassemble hl

theorem jsParseIntHex_two_hex {c1 c2 : Char} (h1 : isHexDigitChar c1 = true)
    (h2 : isHexDigitChar c2 = true) :
    jsParseIntHex [c1, c2] = some (16 * hexVal c1 + hexVal c2) := by
  have hx : ¬([c1, c2].take 2 = ['0', 'x'] ∨ [c1, c2].take 2 = ['0', 'X']) := by
    rintro (he | he) <;>
    · simp only [List.take, List.cons.injEq, and_true] at he
      have := hexDigitChar_ne_hyphen h2
      rw [he.2] at h2
      exact absurd h2 (by decide)
  unfold jsParseIntHex
  rw [if_neg hx]
  simp only [hexDigitVal?_eq_some_hexVal h1, parseHexTail,
    hexDigitVal?_eq_some_hexVal h2]

theorem parsePair_hex {c1 c2 : Char} (h1 : isHexDigitChar c1 = true)
    (h2 : isHexDigitChar c2 = true) :
    parsePair [c1, c2] = 16 * hexVal c1 + hexVal c2 := by
  unfold parsePair
  rw [jsParseIntHex_two_hex h1 h2]
  have h256 : 16 * hexVal c1 + hexVal c2 < 256 := by
    have := hexVal_lt_16 h1
    have := hexVal_lt_16 h2
    omega
  show (16 * hexVal c1 + hexVal c2) % 256 = _
  exact Nat.mod_eq_of_lt h256

/-- Printing the bytes obtained from chunked parsing returns the lowercase
form of the hex string. -/
theorem flatten_pairMap_parsePair {n : Nat} {h : List Char} (hl : h.length = 2 * n)
    (hhex : ∀ c ∈ h, isHexDigitChar c = true) :
    ((pairMap parsePair n h).map byteToHexPair).flatten = h.map jsCharToLower := by
  induction n generalizing h with
  | zero =>
    cases h with
    | nil => rfl
    | cons c t => simp at hl
  | succ k ih =>
    match h, hl with
    | c1 :: c2 :: rest, hl =>
      have h1 : isHexDigitChar c1 = true := hhex c1 (by simp)
      have h2 : isHexDigitChar c2 = true := hhex c2 (by simp)
      have hv1 := hexVal_lt_16 h1
      have hv2 := hexVal_lt_16 h2
      simp only [pairMap, List.take, List.drop, List.map_cons, List.flatten_cons]
      rw [parsePair_hex h1 h2]
      have e1 : (16 * hexVal c1 + hexVal c2) / 16 % 16 = hexVal c1 := by omega
      have e2 : (16 * hexVal c1 + hexVal c2) % 16 = hexVal c2 := by omega
      rw [show byteToHexPair (16 * hexVal c1 + hexVal c2) =
          [toHexDigit (hexVal c1), toHexDigit (hexVal c2)] from by
        unfold byteToHexPair; rw [e1, e2]]
      rw [toHexDigit_hexVal_toLower h1, toHexDigit_hexVal_toLower h2]
      have hrest : rest.length = 2 * k := by
        simp only [List.length_cons] at hl; omega
      rw [ih hrest (fun c hc => hhex c (by simp [hc]))]
      simp

theorem map_insertHyphens {f : Char → Char} (hf : f '-' = '-') (h : List Char) :
    (insertHyphens h).map f = insertHyphens (h.map f) := by
  unfold insertHyphens
  simp [List.map_take, List.map_drop, hf]

theorem map_jsCharToLower_of_lower {h : List Char}
    (hhex : ∀ c ∈ h, isLowerHexDigit c = true) : h.map jsCharToLower = h := by
  calc h.map jsCharToLower = h.map id := by
        apply List.map_congr_left
        intro c hc
        exact jsCharToLower_of_lower (hhex c hc)
    _ = h := List.map_id h

/-- Core round-trip: `stringToBytes` on a valid canonical string produces
the 16 bytes whose chunked parse is the hex content. -/
theorem stringToBytes_insertHyphens {h : List Char} (hl : h.length = 32)
    (hhex : ∀ c ∈ h, isHexDigitChar c = true) :
    stringToBytes (insertHyphens h) = pairMap parsePair 16 h := by
  unfold stringToBytes
  rw [filter_insertHyphens hl hhex]
  exact range_map_pairs parsePair 16 h

/-- `bytesToString (stringToBytes s)` lowercases a valid canonical string. -/
theorem bytesToString_stringToBytes {s : List Char} (hv : ValidCanonical s) :
    bytesToString (stringToBytes s) = s.map jsCharToLower := by
  obtain ⟨h, hl, hhex, rfl⟩ := hv
  rw [stringToBytes_insertHyphens hl hhex]
  unfold bytesToString
  rw [flatten_pairMap_parsePair (by omega) hhex]
  rw [map_insertHyphens (by decide) h]

theorem compactToString_stringToCompact {s : List Char} (hv : ValidCanonical s) :
    compactToString (stringToCompact s) = s := by
  obtain ⟨h, hl, hhex, rfl⟩ := hv
  unfold stringToCompact compactToString
  rw [filter_insertHyphens hl hhex]

theorem validCanonicalLower_validCanonical {s : List Char} (hv : ValidCanonicalLower s) :
    ValidCanonical s := by
  obtain ⟨h, hl, hhex, rfl⟩ := hv
  exact ⟨h, hl, fun c hc => isLowerHexDigit_isHexDigitChar (hhex c hc), rfl⟩

theorem mem_insertHyphens {c : Char} {h : List Char} (hc : c ∈ insertHyphens h) :
    c ∈ h ∨ c = '-' := by
  unfold insertHyphens at hc
  simp only [List.mem_append, List.mem_cons] at hc
  rcases hc with hc | rfl | hc | rfl | hc | rfl | hc | rfl | hc
  · exact Or.inl (List.mem_of_mem_take hc)
  · exact Or.inr rfl
  · exact Or.inl (List.mem_of_mem_drop (List.mem_of_mem_take hc))
  · exact Or.inr rfl
  · exact Or.inl (List.mem_of_mem_drop (List.mem_of_mem_take hc))
  · exact Or.inr rfl
  · exact Or.inl (List.mem_of_mem_drop (List.mem_of_mem_take hc))
  · exact Or.inr rfl
  · exact Or.inl (List.mem_of_mem_drop (List.mem_of_mem_take hc))

/-! ## Concrete identifiers used as witnesses -/

/-- The canonical example identifier of the spec. -/
def sampleCanonical : List Char := "550e8400-e29b-41d4-a716-446655440000".toList

/-- Its 32-character compact hex content. -/
def sampleHex : List Char := "550e8400e29b41d4a716446655440000".toList

theorem sampleCanonical_valid_lower : ValidCanonicalLower sampleCanonical :=
  ⟨sampleHex, by decide, by decide, by decide⟩

/-- A mixed-case variant of the same identifier. -/
def sampleMixed : List Char := "550E8400-E29B-41D4-A716-446655440000".toList

/-- Its 32-character compact hex content. -/
def sampleMixedHex : List Char := "550E8400E29B41D4A716446655440000".toList

theorem sampleMixed_valid : ValidCanonical sampleMixed :=
  ⟨sampleMixedHex, by decide, by decide, by decide⟩

/-! ## Claim C1 -/

/-- C1: for every valid (lowercase) canonical 128-bit identifier and each
storage encoding, decoding the encoding yields the identifier again:
`bytesToString (stringToBytes s) = s` (BINARY),
`compactToString (stringToCompact s) = s` (COMPACT_TEXT), and the
CANONICAL_TEXT / `FULL_STRING` path stores the string unchanged. -/
theorem round_trip_all_encodings (s : List Char) (hv : ValidCanonicalLower s) :
    bytesToString (stringToBytes s) = s ∧
    compactToString (stringToCompact s) = s ∧
    fullStringStore s = s := by
  refine ⟨?_, compactToString_stringToCompact (validCanonicalLower_validCanonical hv), rfl⟩
  rw [bytesToString_stringToBytes (validCanonicalLower_validCanonical hv)]
  obtain ⟨h, hl, hhex, rfl⟩ := hv
  rw [map_insertHyphens (by decide) h, map_jsCharToLower_of_lower hhex]

/-- C1 witness: the round-trip law evaluated at the spec's concrete
identifier `550e8400-e29b-41d4-a716-446655440000`. -/
theorem round_trip_all_encodings_witness :
    ValidCanonicalLower sampleCanonical ∧
    (bytesToString (stringToBytes sampleCanonical) = sampleCanonical ∧
     compactToString (stringToCompact sampleCanonical) = sampleCanonical ∧
     fullStringStore sampleCanonical = sampleCanonical) :=
  ⟨sampleCanonical_valid_lower,
    round_trip_all_encodings sampleCanonical sampleCanonical_valid_lower⟩

/-! ## Claim C4 -/

/-- C4 counterexample: decoding inputs of the wrong size does not fail
with any `MalformedLength` error — `stringToBytes` on the empty string
silently produces sixteen zero bytes (each missing two-character chunk
parses to `NaN`, stored as `0`), and `compactToString` on a 3-character
input returns a malformed 7-character string instead of an error. -/
theorem decode_malformed_no_error_cex :
    stringToBytes [] = List.replicate 16 0 ∧
    compactToString ("abc".toList) = "abc----".toList := by
  constructor
  · decide
  · decide

/-- C4 amended: the codec performs no validation at all.  `stringToBytes`
is total: on every input (whatever its length or characters) it returns a
16-entry byte list with entries below 256, never an error; text
re-encoding (`compactToString`) is likewise total.  No `MalformedLength`
or `InvalidCharacter` failure exists in the code. -/
theorem stringToBytes_total_no_failure (s : List Char) :
    (stringToBytes s).length = 16 ∧ ∀ b ∈ stringToBytes s, b < 256 := by
  constructor
  · simp [stringToBytes]
  · intro b hb
    unfold stringToBytes at hb
    simp only [List.mem_map] at hb
    obtain ⟨i, _, rfl⟩ := hb
    have : ∀ o : Option Nat, toUint8 o < 256 := by
      intro o
      cases o with
      | none => decide
      | some n => exact Nat.mod_lt n (by omega)
    exact this _

/-! ## Claim C10 -/

/-- C10: converting any syntactically valid canonical UUID string
(uppercase hex letters allowed) to bytes and back yields its lowercase
form, and every string the codec emits consists solely of lowercase hex
digits and hyphens: mixed-case identifiers are silently case-normalized. -/
theorem decode_normalizes_case (u : List Char) (hv : ValidCanonical u) :
    bytesToString (stringToBytes u) = u.map jsCharToLower ∧
    ∀ c ∈ bytesToString (stringToBytes u), isLowerHexDigit c = true ∨ c = '-' := by
  refine ⟨bytesToString_stringToBytes hv, ?_⟩
  intro c hc
  rw [bytesToString_stringToBytes hv] at hc
  obtain ⟨h, hl, hhex, rfl⟩ := hv
  rw [map_insertHyphens (by decide) h] at hc
  rcases mem_insertHyphens hc with hm | rfl
  · simp only [List.mem_map] at hm
    obtain ⟨c0, hc0, rfl⟩ := hm
    exact Or.inl (isLowerHexDigit_jsCharToLower (hhex c0 hc0))
  · exact Or.inr rfl

/-- C10 witness: the mixed-case identifier
`550E8400-E29B-41D4-A716-446655440000` is case-normalized by the
bytes round trip. -/
theorem decode_normalizes_case_witness :
    ValidCanonical sampleMixed ∧
    (bytesToString (stringToBytes sampleMixed) = sampleMixed.map jsCharToLower ∧
     ∀ c ∈ bytesToString (stringToBytes sampleMixed),
       isLowerHexDigit c = true ∨ c = '-') :=
  ⟨sampleMixed_valid, decode_normalizes_case sampleMixed sampleMixed_valid⟩

/-! ## Big-endian fixed-width digits and the UUIDv7 generators -/

/-- The `w` big-endian base-`b` digits of `n` (for `n < b ^ w`). -/
def padDigits (b : Nat) : Nat → Nat → List Nat
  | 0, _ => []
  | w + 1, n => (n / b ^ w) :: padDigits b w (n % b ^ w)

/-- JS `t.toString(16).padStart(12, '0')` for a timestamp `t < 2 ^ 48`:
the 12 lowercase hex digits of `t`, zero-padded on the left. -/
def tsHex12 (t : Nat) : List Char := (padDigits 16 12 t).map toHexDigit

/-- `generateUUIDv7` from `src/lib/utils.ts`: the millisecond timestamp as
12 padded hex characters, then the fixed version character `7` followed by
random hex characters.  `randomHex` stands for the 20-character tail of the
random draw (`crypto.randomUUID().replace` of hyphens `.substring(12)`),
passed explicitly so the random source is an input. -/
def generateUUIDv7 (t : Nat) (randomHex : List Char) : List Char :=
  (tsHex12 t).take 8 ++ '-' :: (((tsHex12 t).drop 8).take 4 ++ '-' ::
    ('7' :: (randomHex.take 3 ++ '-' :: ((randomHex.drop 3).take 4 ++ '-' ::
      (randomHex.drop 7).take 12))))

/-- The v7 generator of `uuid-blob-storage-example.ts` (also inlined in
`EquiflowUUIDUtils.createActivityId`): identical timestamp handling, but
the third group is `'7' + timestampHex.substring(12, 15)` — a substring of
the 12-character timestamp that starts at index 12 and is therefore empty —
and the random part (`randomPart`, the 20-character tail of the random
draw) contributes groups four and five via `substring(0,4)` and
`substring(4,16)`. -/
def blobGenerateUUIDv7 (t : Nat) (randomPart : List Char) : List Char :=
  (tsHex12 t).take 8 ++ '-' :: (((tsHex12 t).drop 8).take 4 ++ '-' ::
    (('7' :: ((tsHex12 t).drop 12).take 3) ++ '-' :: (randomPart.take 4 ++ '-' ::
      (randomPart.drop 4).take 12)))

theorem padDigits_length (b w n : Nat) : (padDigits b w n).length = w := by
  induction w generalizing n with
  | zero => rfl
  | succ k ih => simp [padDigits, ih]

theorem padDigits_lt {b w n : Nat} (hb : 0 < b) (hn : n < b ^ w) :
    ∀ d ∈ padDigits b w n, d < b := by
  induction w generalizing n with
  | zero => simp [padDigits]
  | succ k ih =>
    intro d hd
    simp only [padDigits, List.mem_cons] at hd
    rcases hd with rfl | hd
    · rw [Nat.div_lt_iff_lt_mul (Nat.pos_pow_of_pos k hb)]
      rw [Nat.pow_succ, Nat.mul_comm] at hn
      exact hn
    · exact ih (Nat.mod_lt n (Nat.pos_pow_of_pos k hb)) d hd

theorem foldl_padDigits {b : Nat} (w : Nat) : ∀ (a n : Nat), n < b ^ w → 0 < b →
    (padDigits b w n).foldl (fun x d => b * x + d) a = a * b ^ w + n := by
  induction w with
  | zero =>
    intro a n hn _
    rw [Nat.pow_zero] at hn
    simp [padDigits]
    omega
  | succ k ih =>
    intro a n hn hb
    simp only [padDigits, List.foldl_cons]
    rw [ih (b * a + n / b ^ k) (n % b ^ k) (Nat.mod_lt n (Nat.pos_pow_of_pos k hb)) hb]
    have hdm : b ^ k * (n / b ^ k) + n % b ^ k = n := Nat.div_add_mod n (b ^ k)
    rw [Nat.pow_succ]
    calc (b * a + n / b ^ k) * b ^ k + n % b ^ k
        = a * (b ^ k * b) + (b ^ k * (n / b ^ k) + n % b ^ k) := by ring
      _ = a * (b ^ k * b) + n := by rw [hdm]

theorem parseHexTail_foldl {l : List Char} (hhex : ∀ c ∈ l, isHexDigitChar c = true) :
    ∀ a, parseHexTail l a = l.foldl (fun x c => 16 * x + hexVal c) a := by
  induction l with
  | nil => intro a; rfl
  | cons c t ih =>
    intro a
    simp only [parseHexTail, List.foldl_cons,
      hexDigitVal?_eq_some_hexVal (hhex c (by simp))]
    exact ih (fun d hd => hhex d (by simp [hd])) _

theorem take2_ne_hexPrefix {l : List Char} (hhex : ∀ c ∈ l, isHexDigitChar c = true) :
    ¬(l.take 2 = ['0', 'x'] ∨ l.take 2 = ['0', 'X']) := by
  rintro (he | he)
  · have hmem : 'x' ∈ l.take 2 := by rw [he]; simp
    have := hhex _ (List.mem_of_mem_take hmem)
    exact absurd this (by decide)
  · have hmem : 'X' ∈ l.take 2 := by rw [he]; simp
    have := hhex _ (List.mem_of_mem_take hmem)
    exact absurd this (by decide)

theorem jsParseIntHex_all_hex {l : List Char} (hne : l ≠ [])
    (hhex : ∀ c ∈ l, isHexDigitChar c = true) :
    jsParseIntHex l = some (l.foldl (fun x c => 16 * x + hexVal c) 0) := by
  unfold jsParseIntHex
  rw [if_neg (take2_ne_hexPrefix hhex)]
  cases l with
  | nil => exact absurd rfl hne
  | cons c t =>
    simp only [hexDigitVal?_eq_some_hexVal (hhex c (by simp)), List.foldl_cons]
    rw [parseHexTail_foldl (fun d hd => hhex d (by simp [hd]))]
    norm_num

theorem foldl_hexVal_map {ds : List Nat} (hds : ∀ d ∈ ds, d < 16) :
    ∀ a, (ds.map toHexDigit).foldl (fun x c => 16 * x + hexVal c) a =
      ds.foldl (fun x d => 16 * x + d) a := by
  induction ds with
  | nil => intro a; rfl
  | cons d t ih =>
    intro a
    simp only [List.map_cons, List.foldl_cons]
    rw [hexVal_toHexDigit (hds d (by simp))]
    exact ih (fun e he => hds e (by simp [he])) _

theorem tsHex12_length (t : Nat) : (tsHex12 t).length = 12 := by
  simp [tsHex12, padDigits_length]

theorem tsHex12_hex {t : Nat} (ht : t < 16 ^ 12) :
    ∀ c ∈ tsHex12 t, isHexDigitChar c = true := by
  intro c hc
  unfold tsHex12 at hc
  simp only [List.mem_map] at hc
  obtain ⟨d, hd, rfl⟩ := hc
  exact isHexDigitChar_toHexDigit (padDigits_lt (by omega) ht d hd)

theorem jsParseIntHex_tsHex12 {t : Nat} (ht : t < 16 ^ 12) :
    jsParseIntHex (tsHex12 t) = some t := by
  have hne : tsHex12 t ≠ [] := by
    intro he
    have := tsHex12_length t
    rw [he] at this
    simp at this
  rw [jsParseIntHex_all_hex hne (tsHex12_hex ht)]
  unfold tsHex12
  rw [foldl_hexVal_map (padDigits_lt (by omega) ht) 0,
    foldl_padDigits 12 0 t ht (by omega)]
  norm_num

theorem take12_filter_generateUUIDv7 {t : Nat} (r : List Char) (ht : t < 16 ^ 12) :
    ((generateUUIDv7 t r).filter (fun c => decide (c ≠ '-'))).take 12 = tsHex12 t := by
  have hhex := tsHex12_hex ht
  have hy : ∀ l : List Char, ('-' :: l).filter (fun c => decide (c ≠ '-')) =
      l.filter (fun c => decide (c ≠ '-')) := fun l => by simp [List.filter_cons]
  unfold generateUUIDv7
  simp only [List.filter_append, hy]
  rw [filter_hex_eq_self (fun c hc => hhex c (List.mem_of_mem_take hc)),
    filter_hex_eq_self (fun c hc => hhex c (List.mem_of_mem_drop (List.mem_of_mem_take hc)))]
  have hT8 : ((tsHex12 t).take 8).length = 8 := by
    rw [List.length_take, tsHex12_length]
    omega
  have hT4 : (((tsHex12 t).drop 8).take 4).length = 4 := by
    rw [List.length_take, List.length_drop, tsHex12_length]
    omega
  rw [List.take_append_eq_append_take, hT8,
    List.take_of_length_le (by omega : ((tsHex12 t).take 8).length ≤ 12),
    List.take_append_eq_append_take, hT4,
    List.take_of_length_le (by omega : (((tsHex12 t).drop 8).take 4).length ≤ 12 - 8)]
  have h0 : 12 - 8 - 4 = 0 := by norm_num
  rw [h0, List.take_zero, List.append_nil]
  have := (List.take_add (tsHex12 t) 8 4).symm
  simp only [show (8 : Nat) + 4 = 12 from rfl] at this
  rw [this, List.take_of_length_le (by rw [tsHex12_length])]

/-! ## Claim C6 -/

/-- C6: for every 48-bit-representable timestamp `t` and every random
tail, `extractTimestamp` applied to the identifier produced by the
TIME_ORDERED generator (`generateUUIDv7 t`) returns exactly `t`. -/
theorem timestamp_recovery (t : Nat) (r : List Char) (ht : t < 2 ^ 48) :
    extractTimestampStr (generateUUIDv7 t r) = some t := by
  have ht16 : t < 16 ^ 12 := by
    have he : (16 : Nat) ^ 12 = 2 ^ 48 := by norm_num
    rw [he]
    exact ht
  unfold extractTimestampStr
  rw [take12_filter_generateUUIDv7 r ht16, jsParseIntHex_tsHex12 ht16]

/-- A concrete 20-character random tail used as a witness input. -/
def sampleRandomTail : List Char := "0123456789abcdef0123".toList

/-- C6 witness: the spec's concrete scenario, `generateTimeOrdered` at
1700000000000 followed by `extractTimestamp` yields 1700000000000. -/
theorem timestamp_recovery_witness :
    1700000000000 < 2 ^ 48 ∧
    extractTimestampStr (generateUUIDv7 1700000000000 sampleRandomTail) =
      some 1700000000000 :=
  ⟨by norm_num, timestamp_recovery 1700000000000 sampleRandomTail (by norm_num)⟩

/-! ## Claim C5 -/

/-- C5 (code bug): the TIME_ORDERED generator of
`uuid-blob-storage-example.ts` and `EquiflowUUIDUtils.createActivityId`
does not emit well-formed 36-character canonical text.  Its third group is
`'7' + timestampHex.substring(12, 15)`, but `timestampHex` has exactly 12
characters, so the substring is empty and the group is the single
character `7`: at timestamp 1700000000000 (and any random part) the
output has 33 characters, not 36, and its second hyphen sits at index 13
with group three of width 1. -/
theorem time_ordered_generator_malformed :
    (blobGenerateUUIDv7 1700000000000 sampleRandomTail).length = 33 ∧
    blobGenerateUUIDv7 1700000000000 sampleRandomTail =
      "018bcfe5-6800-7-0123-456789abcdef".toList := by
  constructor
  · decide
  · decide

/-! ## Claim C8 -/

/-- C8 counterexample: `extractTimestamp` applied to the RANDOM-scheme
(version 4) identifier `550e8400-e29b-41d4-a716-446655440000` does not
fail with any `WrongScheme` error — it returns the value of the first 48
bits as a timestamp (`0x550e8400e29b` milliseconds). -/
theorem extract_timestamp_v4_returns_value_cex :
    extractTimestampStr sampleCanonical = some 0x550e8400e29b := by
  decide

/-- C8 amended: `extractTimestamp` performs no scheme (version) check at
all: on every valid canonical identifier — RANDOM/v4 identifiers included
— it succeeds and returns the integer value of the first 12 hex digits as
a timestamp, instead of failing with `WrongScheme` on RANDOM identifiers. -/
theorem extract_timestamp_no_scheme_check (s : List Char) (hv : ValidCanonical s) :
    (extractTimestampStr s).isSome = true := by
  obtain ⟨h, hl, hhex, rfl⟩ := hv
  unfold extractTimestampStr
  rw [filter_insertHyphens hl hhex]
  have hne : h.take 12 ≠ [] := by
    intro he
    have h0 : (h.take 12).length = 0 := by rw [he]; rfl
    rw [List.length_take, hl] at h0
    omega
  rw [jsParseIntHex_all_hex hne (fun c hc => hhex c (List.mem_of_mem_take hc))]
  rfl

/-- Another RANDOM-scheme (version 4, variant `b`) identifier. -/
def sampleV4b : List Char := "ffffffff-ffff-4fff-bfff-ffffffffffff".toList

/-- Its compact hex content. -/
def sampleV4bHex : List Char := "ffffffffffff4fffbfffffffffffffff".toList

theorem sampleV4b_valid : ValidCanonical sampleV4b :=
  ⟨sampleV4bHex, by decide, by decide, by decide⟩

/-- C8 witness: the no-scheme-check behaviour evaluated on a concrete v4
identifier. -/
theorem extract_timestamp_no_scheme_check_witness :
    ValidCanonical sampleV4b ∧ (extractTimestampStr sampleV4b).isSome = true :=
  ⟨sampleV4b_valid, extract_timestamp_no_scheme_check sampleV4b sampleV4b_valid⟩

/-! ## Lexicographic ordering machinery for claim C7 -/

theorem lex_padDigits {b w : Nat} (hb : 0 < b) : ∀ {t1 t2 : Nat}, t1 < t2 → t2 < b ^ w →
    List.Lex (· < ·) (padDigits b w t1) (padDigits b w t2) := by
  induction w with
  | zero =>
    intro t1 t2 h12 h2
    rw [Nat.pow_zero] at h2
    omega
  | succ k ih =>
    intro t1 t2 h12 h2
    simp only [padDigits]
    have hq : t1 / b ^ k ≤ t2 / b ^ k := Nat.div_le_div_right (by omega)
    rcases Nat.lt_or_ge (t1 / b ^ k) (t2 / b ^ k) with hlt | hge
    · exact List.Lex.rel hlt
    · have heq : t1 / b ^ k = t2 / b ^ k := by omega
      rw [heq]
      apply List.Lex.cons
      apply ih
      · have e1 := Nat.div_add_mod t1 (b ^ k)
        have e2 := Nat.div_add_mod t2 (b ^ k)
        rw [heq] at e1
        omega
      · exact Nat.mod_lt t2 (Nat.pos_pow_of_pos k hb)

theorem toHexDigit_lt {d1 d2 : Nat} (h1 : d1 < 16) (h2 : d2 < 16) (h : d1 < d2) :
    toHexDigit d1 < toHexDigit d2 := by
  rw [char_lt_iff_toNat_lt, toNat_toHexDigit h1, toNat_toHexDigit h2]
  split <;> split <;> omega

theorem lex_map_toHexDigit : ∀ {l1 l2 : List Nat}, (∀ d ∈ l1, d < 16) →
    (∀ d ∈ l2, d < 16) → List.Lex (· < ·) l1 l2 →
    List.Lex (· < ·) (l1.map toHexDigit) (l2.map toHexDigit) := by
  intro l1
  induction l1 with
  | nil =>
    intro l2 _ _ h
    cases h with
    | nil => exact List.Lex.nil
  | cons a t ih =>
    intro l2 h1 h2 h
    cases h with
    | rel hab =>
      simp only [List.map_cons]
      exact List.Lex.rel (toHexDigit_lt (h1 a (by simp)) (h2 _ (by simp)) hab)
    | cons htail =>
      simp only [List.map_cons]
      exact List.Lex.cons (ih (fun d hd => h1 d (by simp [hd]))
        (fun d hd => h2 d (by simp [hd])) htail)

theorem lex_append_common {α : Type} {r : α → α → Prop} (a : List α) {l1 l2 : List α}
    (h : List.Lex r l1 l2) : List.Lex r (a ++ l1) (a ++ l2) := by
  induction a with
  | nil => exact h
  | cons x t ih => exact List.Lex.cons ih

theorem lex_append_of_length_eq {α : Type} {r : α → α → Prop} :
    ∀ {l1 l2 : List α} (s1 s2 : List α), l1.length = l2.length →
    List.Lex r l1 l2 → List.Lex r (l1 ++ s1) (l2 ++ s2) := by
  intro l1
  induction l1 with
  | nil =>
    intro l2 s1 s2 hlen h
    have h2 : l2 = [] := List.eq_nil_of_length_eq_zero (by simpa using hlen.symm)
    subst h2
    cases h
  | cons a t ih =>
    intro l2 s1 s2 hlen h
    cases h with
    | rel hab => exact List.Lex.rel hab
    | cons htail =>
      exact List.Lex.cons (ih s1 s2 (by simpa using hlen) htail)

theorem lex_append_split {α : Type} {r : α → α → Prop} :
    ∀ {a1 a2 b1 b2 : List α}, a1.length = a2.length →
    List.Lex r (a1 ++ b1) (a2 ++ b2) →
    List.Lex r a1 a2 ∨ (a1 = a2 ∧ List.Lex r b1 b2) := by
  intro a1
  induction a1 with
  | nil =>
    intro a2 b1 b2 hlen h
    have h2 : a2 = [] := List.eq_nil_of_length_eq_zero (by simpa using hlen.symm)
    subst h2
    exact Or.inr ⟨rfl, h⟩
  | cons x t ih =>
    intro a2 b1 b2 hlen h
    cases a2 with
    | nil => simp at hlen
    | cons y m =>
      cases h with
      | rel hxy => exact Or.inl (List.Lex.rel hxy)
      | cons htail =>
        rcases ih (by simpa using hlen) htail with h' | ⟨heq, h'⟩
        · exact Or.inl (List.Lex.cons h')
        · exact Or.inr ⟨by rw [heq], h'⟩

theorem tsHex12_lex {t1 t2 : Nat} (h12 : t1 < t2) (h2 : t2 < 16 ^ 12) :
    List.Lex (· < ·) (tsHex12 t1) (tsHex12 t2) := by
  unfold tsHex12
  exact lex_map_toHexDigit (padDigits_lt (by omega) (by omega))
    (padDigits_lt (by omega) h2) (lex_padDigits (by omega) h12 h2)

theorem generateUUIDv7_text_lt {t1 t2 : Nat} (r1 r2 : List Char)
    (h12 : t1 < t2) (h2 : t2 < 16 ^ 12) :
    List.Lex (· < ·) (generateUUIDv7 t1 r1) (generateUUIDv7 t2 r2) := by
  have hLex := tsHex12_lex h12 h2
  have hsplit := @lex_append_split Char (fun a b => a < b) ((tsHex12 t1).take 8)
    ((tsHex12 t2).take 8) ((tsHex12 t1).drop 8) ((tsHex12 t2).drop 8)
    (by rw [List.length_take, List.length_take, tsHex12_length, tsHex12_length])
    (by rw [List.take_append_drop, List.take_append_drop]; exact hLex)
  have hd4 : ∀ t : Nat, ((tsHex12 t).drop 8).take 4 = (tsHex12 t).drop 8 := by
    intro t
    exact List.take_of_length_le (by rw [List.length_drop, tsHex12_length])
  unfold generateUUIDv7
  rcases hsplit with h8 | ⟨h8eq, hd⟩
  · exact lex_append_of_length_eq _ _
      (by rw [List.length_take, List.length_take, tsHex12_length, tsHex12_length]) h8
  · rw [h8eq, hd4 t1, hd4 t2]
    apply lex_append_common
    apply List.Lex.cons
    exact lex_append_of_length_eq _ _
      (by rw [List.length_drop, List.length_drop, tsHex12_length, tsHex12_length]) hd

theorem pairMap_cons_cons (f : List Char → β) (n : Nat) (c1 c2 : Char) (rest : List Char) :
    pairMap f (n + 1) (c1 :: c2 :: rest) = f [c1, c2] :: pairMap f n rest := rfl

/-- Parsing the padded hex digits two at a time yields the big-endian
base-256 bytes of the same number. -/
theorem pairMap_parsePair_padDigits : ∀ (n : Nat) {t : Nat}, t < 16 ^ (2 * n) →
    pairMap parsePair n ((padDigits 16 (2 * n) t).map toHexDigit) = padDigits 256 n t := by
  intro n
  induction n with
  | zero => intro t ht; rfl
  | succ k ih =>
    intro t ht
    have h16a : (16:Nat) ^ (2 * k + 1) = 16 ^ (2 * k) * 16 := by rw [Nat.pow_succ]
    have hP : (256:Nat) ^ k = 16 ^ (2 * k) := by
      rw [Nat.pow_mul]
    have hpow : (16:Nat) ^ (2 * (k + 1)) = 16 ^ (2 * k + 1) * 16 := by
      rw [← Nat.pow_succ]
      exact congrArg (fun e => (16:Nat) ^ e) (by omega)
    have hd1 : t / 16 ^ (2 * k + 1) < 16 := by
      rw [Nat.div_lt_iff_lt_mul (Nat.pos_pow_of_pos _ (by omega)),
        Nat.mul_comm 16 (16 ^ (2 * k + 1))]
      rw [hpow] at ht
      exact ht
    have hd2 : (t % 16 ^ (2 * k + 1)) / 16 ^ (2 * k) < 16 := by
      have hm : t % 16 ^ (2 * k + 1) < 16 ^ (2 * k) * 16 := by
        rw [← h16a]
        exact Nat.mod_lt t (Nat.pos_pow_of_pos _ (by omega))
      rw [Nat.div_lt_iff_lt_mul (Nat.pos_pow_of_pos _ (by omega)),
        Nat.mul_comm 16 (16 ^ (2 * k))]
      exact hm
    have h2k1 : 2 * (k + 1) = 2 * k + 1 + 1 := by ring
    rw [h2k1]
    simp only [padDigits, List.map_cons]
    rw [pairMap_cons_cons]
    rw [parsePair_hex (isHexDigitChar_toHexDigit hd1) (isHexDigitChar_toHexDigit hd2),
      hexVal_toHexDigit hd1, hexVal_toHexDigit hd2]
    have hmm : t % 16 ^ (2 * k + 1) % 16 ^ (2 * k) = t % 16 ^ (2 * k) :=
      Nat.mod_mod_of_dvd t ⟨16, h16a⟩
    have hd2e : (t % 16 ^ (2 * k + 1)) / 16 ^ (2 * k) = t / 16 ^ (2 * k) % 16 := by
      rw [h16a]
      exact Nat.mod_mul_right_div_self t _ _
    have hd1e : t / 16 ^ (2 * k + 1) = t / 16 ^ (2 * k) / 16 := by
      rw [h16a, Nat.div_div_eq_div_mul]
    congr 1
    · rw [hd1e, hd2e, hP]
      omega
    · rw [hmm]
      rw [show t % 16 ^ (2 * k) = t % 256 ^ k by rw [hP]]
      exact ih (lt_of_lt_of_le (Nat.mod_lt t (by rw [hP]; exact Nat.pos_pow_of_pos _ (by omega)))
        (le_of_eq hP))

theorem take6_stringToBytes_generateUUIDv7 (t : Nat) (r : List Char) (ht : t < 16 ^ 12) :
    (stringToBytes (generateUUIDv7 t r)).take 6 = padDigits 256 6 t := by
  simp only [stringToBytes]
  have hsplit : (generateUUIDv7 t r).filter (fun c => decide (c ≠ '-')) =
      tsHex12 t ++ ((generateUUIDv7 t r).filter (fun c => decide (c ≠ '-'))).drop 12 := by
    conv_lhs => rw [← List.take_append_drop 12
      ((generateUUIDv7 t r).filter (fun c => decide (c ≠ '-')))]
    rw [take12_filter_generateUUIDv7 r ht]
  rw [← List.map_take, List.take_range, show min 6 16 = 6 from rfl]
  have hmap : ∀ i ∈ List.range 6,
      toUint8 (jsParseIntHex (((((generateUUIDv7 t r).filter
          (fun c => decide (c ≠ '-')))).drop (2 * i)).take 2)) =
      parsePair (((tsHex12 t).drop (2 * i)).take 2) := by
    intro i hi
    rw [List.mem_range] at hi
    rw [hsplit]
    rw [List.drop_append_of_le_length (by rw [tsHex12_length]; omega)]
    rw [List.take_append_of_le_length (by rw [List.length_drop, tsHex12_length]; omega)]
    rfl
  rw [List.map_congr_left hmap, range_map_pairs]
  have h12 : (12 : Nat) = 2 * 6 := rfl
  unfold tsHex12
  rw [h12] at ht ⊢
  exact pairMap_parsePair_padDigits 6 ht

theorem generateUUIDv7_bytes_lt {t1 t2 : Nat} (r1 r2 : List Char)
    (h12 : t1 < t2) (h2 : t2 < 16 ^ 12) :
    List.Lex (· < ·) (stringToBytes (generateUUIDv7 t1 r1))
      (stringToBytes (generateUUIDv7 t2 r2)) := by
  have e1 := take6_stringToBytes_generateUUIDv7 t1 r1 (by omega)
  have e2 := take6_stringToBytes_generateUUIDv7 t2 r2 h2
  have hlex : List.Lex (· < ·) (padDigits 256 6 t1) (padDigits 256 6 t2) := by
    apply lex_padDigits (by omega) h12
    have he : (256:Nat) ^ 6 = 16 ^ 12 := by norm_num
    rw [he]
    exact h2
  rw [← List.take_append_drop 6 (stringToBytes (generateUUIDv7 t1 r1)),
    ← List.take_append_drop 6 (stringToBytes (generateUUIDv7 t2 r2)), e1, e2]
  exact lex_append_of_length_eq _ _ (by rw [padDigits_length, padDigits_length]) hlex

/-! ## Claim C7 -/

/-- C7: for timestamps `t1 < t2` (48-bit representable) and any random
tails, the identifier generated at `t1` sorts strictly before the one
generated at `t2`, both in lexicographic ordering of the canonical text
and in byte-wise ordering of the BINARY encoding. -/
theorem temporal_monotonicity (t1 t2 : Nat) (r1 r2 : List Char)
    (h12 : t1 < t2) (h2 : t2 < 2 ^ 48) :
    List.Lex (· < ·) (generateUUIDv7 t1 r1) (generateUUIDv7 t2 r2) ∧
    List.Lex (· < ·) (stringToBytes (generateUUIDv7 t1 r1))
      (stringToBytes (generateUUIDv7 t2 r2)) := by
  have h2' : t2 < 16 ^ 12 := by
    have he : (16:Nat) ^ 12 = 2 ^ 48 := by norm_num
    rw [he]
    exact h2
  exact ⟨generateUUIDv7_text_lt r1 r2 h12 h2', generateUUIDv7_bytes_lt r1 r2 h12 h2'⟩

/-- C7 witness: monotonicity instantiated at the concrete timestamps
1 < 2 with empty random tails. -/
theorem temporal_monotonicity_witness :
    (1:Nat) < 2 ∧ (2:Nat) < 2 ^ 48 ∧
    (List.Lex (· < ·) (generateUUIDv7 1 []) (generateUUIDv7 2 []) ∧
     List.Lex (· < ·) (stringToBytes (generateUUIDv7 1 []))
       (stringToBytes (generateUUIDv7 2 []))) :=
  ⟨by norm_num, by norm_num, temporal_monotonicity 1 2 [] [] (by norm_num) (by norm_num)⟩

/-- Binary round trip returns a valid lowercase identifier unchanged. -/
theorem bytesToString_stringToBytes_lower {s : List Char} (hv : ValidCanonicalLower s) :
    bytesToString (stringToBytes s) = s := by
  rw [bytesToString_stringToBytes (validCanonicalLower_validCanonical hv)]
  obtain ⟨h, hl, hhex, rfl⟩ := hv
  rw [map_insertHyphens (by decide) h, map_jsCharToLower_of_lower hhex]

/-! ## The tenant-scoped contact repository (`ContactRepository` in the
unnamed CRM example file) -/

/-- The error taxonomy of the contact layer (`ContactError`). -/
inductive ContactError where
  | CONTACT_NOT_FOUND (contactId : List Char)
  | DUPLICATE_EMAIL (email : List Char)
  | INVALID_TENANT (tenantId : List Char)
  | VALIDATION_ERROR (field message : List Char)
  | DATABASE_ERROR (cause : List Char)
deriving DecidableEq

/-- A `Contact` row: identifier-typed fields are canonical strings, dates
are `Nat` milliseconds, `deletedAt` is the soft-delete tombstone. -/
structure Contact where
  id : List Char
  tenantId : List Char
  firstName : List Char
  lastName : List Char
  email : List Char
  phone : Option (List Char)
  companyId : Option (List Char)
  tags : List (List Char)
  createdAt : Nat
  updatedAt : Nat
  deletedAt : Option Nat
deriving DecidableEq

/-- The row predicate shared by `findById` and `update`:
`eq(contacts.id, id) AND eq(contacts.tenantId, this.tenantId) AND
isNull(contacts.deletedAt)`. -/
def liveMatch (tenantId id : List Char) (c : Contact) : Prop :=
  c.id = id ∧ c.tenantId = tenantId ∧ c.deletedAt = none

instance liveMatchDecidable (tenantId id : List Char) (c : Contact) :
    Decidable (liveMatch tenantId id c) := by
  unfold liveMatch
  infer_instance

/-- `ContactRepository.findById`: select rows under the live-match
predicate with `limit 1`; `ok` on the first row, otherwise the typed
error `CONTACT_NOT_FOUND`. -/
def findById (db : List Contact) (tenantId id : List Char) :
    Except ContactError Contact :=
  match (db.filter (fun c => decide (liveMatch tenantId id c))).take 1 with
  | [] => .error (.CONTACT_NOT_FOUND id)
  | c :: _ => .ok c

/-- `ContactRepository.update`: update rows under the live-match
predicate, setting the patched fields plus `updatedAt = now`; `returning`
yields the updated rows, `ok` on the first, otherwise `CONTACT_NOT_FOUND`.
`patch` models the spread of the partial `data` object onto a row. -/
def updateContact (db : List Contact) (tenantId id : List Char)
    (patch : Contact → Contact) (now : Nat) :
    List Contact × Except ContactError Contact :=
  let apply := fun c : Contact => { patch c with updatedAt := now }
  (db.map (fun c => if liveMatch tenantId id c then apply c else c),
    match ((db.filter (fun c => decide (liveMatch tenantId id c))).map apply) with
    | [] => .error (.CONTACT_NOT_FOUND id)
    | c :: _ => .ok c)

/-- `ContactRepository.softDelete`: update rows matching
`eq(contacts.id, id) AND eq(contacts.tenantId, this.tenantId)` — note no
`isNull(deletedAt)` clause — setting `deletedAt = now`; the result is
mapped to `ok ()` unconditionally (`DATABASE_ERROR` arises only from a
rejected storage call, outside this model). -/
def softDelete (db : List Contact) (tenantId id : List Char) (now : Nat) :
    List Contact × Except ContactError Unit :=
  (db.map (fun c => if c.id = id ∧ c.tenantId = tenantId then
      { c with deletedAt := some now } else c),
    .ok ())

/-! ## The storage-strategy repository (`OptimizedCRMRepository` in
`uuid-blob-storage-example.ts`) -/

/-- `UUIDStorageStrategy`. -/
inductive UUIDStorageStrategy where
  | BLOB
  | COMPACT_STRING
  | FULL_STRING
deriving DecidableEq

/-- A stored identifier column value: 16-byte blob or text. -/
inductive StoredId where
  | blob (bytes : List Nat)
  | text (s : List Char)
deriving DecidableEq

/-- The per-strategy identifier conversion applied before every insert and
query (`switch (this.storageStrategy)` in `createContact` /
`findContactById`). -/
def encodeStored : UUIDStorageStrategy → List Char → StoredId
  | .BLOB, s => .blob (stringToBytes s)
  | .COMPACT_STRING, s => .text (stringToCompact s)
  | .FULL_STRING, s => .text s

/-- `convertStoredIdToString`: converts a stored id back to canonical
text.  The mismatched strategy/value arms cannot arise for rows written
through `encodeStored` and return a placeholder. -/
def convertStoredIdToString : UUIDStorageStrategy → StoredId → List Char
  | .BLOB, .blob bs => bytesToString bs
  | .COMPACT_STRING, .text s => compactToString s
  | .FULL_STRING, .text s => s
  | .BLOB, .text _ => bytesToString []
  | .COMPACT_STRING, .blob _ => compactToString []
  | .FULL_STRING, .blob _ => []

/-- A row of the `contacts` table with strategy-encoded identifiers. -/
structure StoredContact where
  id : StoredId
  tenant_id : StoredId
  first_name : List Char
  last_name : List Char
  email : List Char
  created_at : Nat
  updated_at : Nat
  deleted_at : Option Nat
deriving DecidableEq

/-- An application-level contact as returned by `findContactById`
(spread of the row with identifiers converted back to strings). -/
structure AppContact where
  id : List Char
  tenantId : List Char
  firstName : List Char
  lastName : List Char
  email : List Char
  createdAt : Nat
  updatedAt : Nat
  deletedAt : Option Nat
deriving DecidableEq

/-- `OptimizedCRMRepository.findContactById`: encode the query ids per the
configured strategy, select the first row matching
`id = ? AND tenant_id = ? AND deleted_at IS NULL`, return `null` (`none`)
when there is none, else the row with ids converted back to strings. -/
def findContactById (st : UUIDStorageStrategy) (db : List StoredContact)
    (id tenantId : List Char) : Option AppContact :=
  match db.filter (fun r => decide (r.id = encodeStored st id ∧
      r.tenant_id = encodeStored st tenantId ∧ r.deleted_at = none)) with
  | [] => none
  | r :: _ =>
    some { id := convertStoredIdToString st r.id
           tenantId := convertStoredIdToString st r.tenant_id
           firstName := r.first_name
           lastName := r.last_name
           email := r.email
           createdAt := r.created_at
           updatedAt := r.updated_at
           deletedAt := r.deleted_at }

theorem encodeStored_injective {st : UUIDStorageStrategy} {a b : List Char}
    (ha : ValidCanonicalLower a) (hb : ValidCanonicalLower b)
    (h : encodeStored st a = encodeStored st b) : a = b := by
  cases st with
  | BLOB =>
    simp only [encodeStored, StoredId.blob.injEq] at h
    rw [← bytesToString_stringToBytes_lower ha, ← bytesToString_stringToBytes_lower hb, h]
  | COMPACT_STRING =>
    simp only [encodeStored, StoredId.text.injEq] at h
    rw [← compactToString_stringToCompact (validCanonicalLower_validCanonical ha),
      ← compactToString_stringToCompact (validCanonicalLower_validCanonical hb), h]
  | FULL_STRING =>
    simpa only [encodeStored, StoredId.text.injEq] using h

/-! ## Concrete repository fixtures -/

/-- A concrete tenant identifier. -/
def tenantA : List Char := "aaaaaaaa-aaaa-4aaa-8aaa-aaaaaaaaaaaa".toList

/-- A second, distinct tenant identifier. -/
def tenantB : List Char := "bbbbbbbb-bbbb-4bbb-8bbb-bbbbbbbbbbbb".toList

theorem tenantA_valid : ValidCanonicalLower tenantA :=
  ⟨"aaaaaaaaaaaa4aaa8aaaaaaaaaaaaaaa".toList, by decide, by decide, by decide⟩

theorem tenantB_valid : ValidCanonicalLower tenantB :=
  ⟨"bbbbbbbbbbbb4bbb8bbbbbbbbbbbbbbb".toList, by decide, by decide, by decide⟩

/-- A live contact row of tenant A. -/
def contact0 : Contact :=
  { id := sampleCanonical
    tenantId := tenantA
    firstName := "John".toList
    lastName := "Doe".toList
    email := "john@example.com".toList
    phone := none
    companyId := none
    tags := []
    createdAt := 0
    updatedAt := 0
    deletedAt := none }

/-- The same contact as a BLOB-strategy stored row. -/
def storedRow0 : StoredContact :=
  { id := encodeStored .BLOB sampleCanonical
    tenant_id := encodeStored .BLOB tenantA
    first_name := "John".toList
    last_name := "Doe".toList
    email := "john@example.com".toList
    created_at := 0
    updated_at := 0
    deleted_at := none }

/-! ## Claim C2 -/

/-- C2 counterexample: `ContactRepository.findById` does not return `None`
when no live record of the caller's tenant matches — it fails with the
typed error `CONTACT_NOT_FOUND`.  Concretely, with one record stored under
tenant A, looking its id up under tenant B yields
`error (CONTACT_NOT_FOUND id)`, not a `None`-style success. -/
theorem tenant_isolation_error_not_none_cex :
    findById [contact0] tenantB sampleCanonical =
      Except.error (ContactError.CONTACT_NOT_FOUND sampleCanonical) := by
  rfl

/-- C2 (amended): tenant isolation itself holds in both repositories.
`findContactById` returns `none` whenever no stored row belongs to the
caller's tenant — i.e. whenever every row was created under some valid
tenant other than the caller's, rows of several different foreign tenants
allowed — for every storage strategy, since the id encoding is injective
on valid identifiers.  `ContactRepository.findById` returns `ok` only for
records satisfying the `id = ? AND tenantId = ? AND deletedAt IS NULL`
predicate (so it never returns a foreign or deleted record), but it
reports the no-match case with the typed error `CONTACT_NOT_FOUND`
instead of `None`. -/
theorem tenant_isolation_amended :
    (∀ (st : UUIDStorageStrategy) (db : List StoredContact) (b id : List Char),
      ValidCanonicalLower b →
      (∀ r ∈ db, ∃ a, ValidCanonicalLower a ∧ a ≠ b ∧
        r.tenant_id = encodeStored st a) →
      findContactById st db id b = none) ∧
    (∀ (db : List Contact) (tenantId id : List Char),
      (∀ c ∈ db, ¬ liveMatch tenantId id c) →
      findById db tenantId id = .error (.CONTACT_NOT_FOUND id)) ∧
    (∀ (db : List Contact) (tenantId id : List Char) (c : Contact),
      findById db tenantId id = .ok c → liveMatch tenantId id c) := by
  refine ⟨?_, ?_, ?_⟩
  · intro st db b id hb hdb
    unfold findContactById
    have hfil : db.filter (fun r => decide (r.id = encodeStored st id ∧
        r.tenant_id = encodeStored st b ∧ r.deleted_at = none)) = [] := by
      rw [List.filter_eq_nil_iff]
      intro r hr
      simp only [decide_eq_true_eq]
      rintro ⟨-, hten, -⟩
      obtain ⟨a, ha, hne, hta⟩ := hdb r hr
      exact hne (encodeStored_injective ha hb (hta.symm.trans hten))
    rw [hfil]
  · intro db tenantId id hdb
    unfold findById
    have hfil : db.filter (fun c => decide (liveMatch tenantId id c)) = [] := by
      rw [List.filter_eq_nil_iff]
      intro c hc
      simpa using hdb c hc
    rw [hfil]
    rfl
  · intro db tenantId id c h
    unfold findById at h
    cases hfil : (db.filter (fun c => decide (liveMatch tenantId id c))).take 1 with
    | nil =>
      rw [hfil] at h
      exact absurd h (by simp)
    | cons c0 tl =>
      rw [hfil] at h
      simp only [Except.ok.injEq] at h
      subst h
      have hc0 : c0 ∈ db.filter (fun c => decide (liveMatch tenantId id c)) :=
        List.mem_of_mem_take (by rw [hfil]; exact List.mem_cons_self c0 tl)
      have hp := (List.mem_filter.mp hc0).2
      simpa using hp

/-- A third tenant identifier, distinct from A and B. -/
def tenantC : List Char := "cccccccc-cccc-4ccc-8ccc-cccccccccccc".toList

theorem tenantC_valid : ValidCanonicalLower tenantC :=
  ⟨"cccccccccccc4ccc8ccccccccccccccc".toList, by decide, by decide, by decide⟩

/-- A second stored row, created under tenant C. -/
def storedRowC : StoredContact :=
  { id := encodeStored .BLOB sampleV4b
    tenant_id := encodeStored .BLOB tenantC
    first_name := "Jane".toList
    last_name := "Doe".toList
    email := "jane@example.com".toList
    created_at := 0
    updated_at := 0
    deleted_at := none }

/-- C2 witness: the amended theorem evaluated on a concrete two-row
database whose rows belong to two different foreign tenants A and C,
queried under tenant B (BLOB strategy), plus the `findById` soundness
conjunct evaluated at a successful concrete lookup under tenant A. -/
theorem tenant_isolation_amended_witness :
    ValidCanonicalLower tenantB ∧
    (∀ r ∈ [storedRow0, storedRowC], ∃ a, ValidCanonicalLower a ∧ a ≠ tenantB ∧
      r.tenant_id = encodeStored .BLOB a) ∧
    findContactById .BLOB [storedRow0, storedRowC] sampleCanonical tenantB = none ∧
    (∀ c ∈ [contact0], ¬ liveMatch tenantB sampleCanonical c) ∧
    findById [contact0] tenantB sampleCanonical =
      .error (.CONTACT_NOT_FOUND sampleCanonical) ∧
    findById [contact0] tenantA sampleCanonical = .ok contact0 ∧
    liveMatch tenantA sampleCanonical contact0 := by
  have hrows : ∀ r ∈ [storedRow0, storedRowC], ∃ a, ValidCanonicalLower a ∧
      a ≠ tenantB ∧ r.tenant_id = encodeStored .BLOB a := by
    intro r hr
    simp only [List.mem_cons, List.not_mem_nil, or_false] at hr
    rcases hr with rfl | rfl
    · exact ⟨tenantA, tenantA_valid, by decide, rfl⟩
    · exact ⟨tenantC, tenantC_valid, by decide, rfl⟩
  refine ⟨tenantB_valid, hrows, ?_, by decide, ?_, rfl, ?_⟩
  · exact tenant_isolation_amended.1 .BLOB [storedRow0, storedRowC] tenantB
      sampleCanonical tenantB_valid hrows
  · exact tenant_isolation_amended.2.1 [contact0] tenantB sampleCanonical (by decide)
  · exact tenant_isolation_amended.2.2 [contact0] tenantA sampleCanonical contact0 rfl

/-! ## Claim C3 -/

/-- C3 counterexample: after a successful `softDelete` of a live record,
`findById` does not return `None` — it fails with the typed error
`CONTACT_NOT_FOUND` (the exclusion itself holds, but the read reports an
error rather than an empty success). -/
theorem soft_delete_find_errors_cex :
    (softDelete [contact0] tenantA sampleCanonical 50).2 = .ok () ∧
    findById (softDelete [contact0] tenantA sampleCanonical 50).1 tenantA
      sampleCanonical = .error (.CONTACT_NOT_FOUND sampleCanonical) := by
  constructor
  · rfl
  · rfl

theorem softDelete_filter_live_nil (db : List Contact) (tenantId id : List Char)
    (n : Nat) :
    ((softDelete db tenantId id n).1).filter
      (fun c => decide (liveMatch tenantId id c)) = [] := by
  rw [List.filter_eq_nil_iff]
  intro c hc
  simp only [softDelete, List.mem_map] at hc
  obtain ⟨c0, _, rfl⟩ := hc
  by_cases hp : c0.id = id ∧ c0.tenantId = tenantId
  · rw [if_pos hp]
    simp [liveMatch]
  · rw [if_neg hp]
    simp only [decide_eq_true_eq]
    rintro ⟨h1, h2, -⟩
    exact hp ⟨h1, h2⟩

/-- C3 (amended): after `softDelete(id, tenantId)` (which always
succeeds), the record is excluded from all subsequent reads and updates:
`findById` fails with `CONTACT_NOT_FOUND` (rather than returning `None`)
and `update` fails with `CONTACT_NOT_FOUND`, for every database, patch
and timestamp — the `deletedAt IS NULL` predicate excludes the record and
the DELETED state is terminal. -/
theorem soft_delete_exclusion (db : List Contact) (tenantId id : List Char)
    (n now : Nat) (patch : Contact → Contact) :
    (softDelete db tenantId id n).2 = .ok () ∧
    findById (softDelete db tenantId id n).1 tenantId id =
      .error (.CONTACT_NOT_FOUND id) ∧
    (updateContact (softDelete db tenantId id n).1 tenantId id patch now).2 =
      .error (.CONTACT_NOT_FOUND id) := by
  refine ⟨rfl, ?_, ?_⟩
  · unfold findById
    rw [softDelete_filter_live_nil]
    rfl
  · unfold updateContact
    rw [softDelete_filter_live_nil]
    rfl

/-! ## Claim C9 -/

/-- C9 counterexample: a second `softDelete` on an already-deleted record
returns `Ok` but does not leave the stored `deletedAt` as the first call
set it — its predicate has no `deletedAt IS NULL` clause, so it re-matches
the record and overwrites the tombstone with its own timestamp, changing
the table state. -/
theorem soft_delete_second_call_updates_cex :
    (softDelete (softDelete [contact0] tenantA sampleCanonical 100).1 tenantA
      sampleCanonical 200).2 = .ok () ∧
    (softDelete (softDelete [contact0] tenantA sampleCanonical 100).1 tenantA
      sampleCanonical 200).1 ≠
      (softDelete [contact0] tenantA sampleCanonical 100).1 := by
  constructor
  · rfl
  · decide

/-- C9 (amended): `softDelete` is idempotent only in its result value —
every call (including on already-deleted or nonexistent records) returns
`Ok(())` with no error, and deleting a nonexistent id updates nothing —
but a second call on an existing record does update: it overwrites the
stored `deletedAt` with its own timestamp (last-write-wins), because the
update predicate lacks a `deletedAt IS NULL` clause. -/
theorem soft_delete_result_idempotent (db : List Contact)
    (tenantId id : List Char) (n1 n2 : Nat) :
    (softDelete (softDelete db tenantId id n1).1 tenantId id n2).2 = .ok () ∧
    (softDelete (softDelete db tenantId id n1).1 tenantId id n2).1 =
      (softDelete db tenantId id n2).1 ∧
    ((∀ c ∈ db, ¬(c.id = id ∧ c.tenantId = tenantId)) →
      (softDelete db tenantId id n2).1 = db) := by
  refine ⟨rfl, ?_, ?_⟩
  · simp only [softDelete, List.map_map]
    apply List.map_congr_left
    intro c _
    simp only [Function.comp_apply]
    by_cases hp : c.id = id ∧ c.tenantId = tenantId
    · rw [if_pos hp, if_pos (by simpa using hp), if_pos hp]
    · simp only [if_neg hp]
  · intro hnone
    simp only [softDelete]
    have he : ∀ c ∈ db, (if c.id = id ∧ c.tenantId = tenantId then
        { c with deletedAt := some n2 } else c) = c := by
      intro c hc
      rw [if_neg (hnone c hc)]
    rw [List.map_congr_left he, List.map_id']

/-- C9 witness: the amended statement evaluated on the empty table. -/
theorem soft_delete_result_idempotent_witness :
    (softDelete (softDelete ([] : List Contact) tenantA sampleCanonical 1).1
      tenantA sampleCanonical 2).2 = .ok () ∧
    (softDelete (softDelete ([] : List Contact) tenantA sampleCanonical 1).1
      tenantA sampleCanonical 2).1 =
      (softDelete ([] : List Contact) tenantA sampleCanonical 2).1 ∧
    (softDelete ([] : List Contact) tenantA sampleCanonical 2).1 = [] :=
  ⟨(soft_delete_result_idempotent [] tenantA sampleCanonical 1 2).1,
   (soft_delete_result_idempotent [] tenantA sampleCanonical 1 2).2.1,
   (soft_delete_result_idempotent [] tenantA sampleCanonical 1 2).2.2
     (by simp)⟩
